import Mathlib

/-!
Shallow embedding of the contact normalization and uniqueness-counting logic of
`src/main.py`: `cleanup_phone_numbers`, `cleanup_emails`, and
`get_unique_contacts_count`, together with the spec-side comparison definitions
and the theorems settling the claims about them.

The `phonenumbers` library is an external black box; it is modelled as an
abstract parameter `pf : PhoneParser` that, given the raw string and the region
hint, either returns the canonical international formatting (`some formatted`,
the `parse`-then-`format_number` pipeline succeeding) or fails (`none`,
corresponding to `NumberParseException`). Python string primitives used by the
code (`strip`, `lower`, `startswith`) are modelled character-wise on
`String.data`.
-/

/-- Whitespace characters removed by Python's `str.strip()` (ASCII range). -/
def pyWS (c : Char) : Bool :=
  c = ' ' || c = '\t' || c = '\n' || c = '\r' || c = '\x0b' || c = '\x0c'

/-- ASCII lower-casing of one character, as Python's `str.lower()` acts on
the ASCII range. -/
def lowerChar (c : Char) : Char :=
  if c = 'A' then 'a' else if c = 'B' then 'b' else if c = 'C' then 'c'
  else if c = 'D' then 'd' else if c = 'E' then 'e' else if c = 'F' then 'f'
  else if c = 'G' then 'g' else if c = 'H' then 'h' else if c = 'I' then 'i'
  else if c = 'J' then 'j' else if c = 'K' then 'k' else if c = 'L' then 'l'
  else if c = 'M' then 'm' else if c = 'N' then 'n' else if c = 'O' then 'o'
  else if c = 'P' then 'p' else if c = 'Q' then 'q' else if c = 'R' then 'r'
  else if c = 'S' then 's' else if c = 'T' then 't' else if c = 'U' then 'u'
  else if c = 'V' then 'v' else if c = 'W' then 'w' else if c = 'X' then 'x'
  else if c = 'Y' then 'y' else if c = 'Z' then 'z' else c

/-- `str.lower()` on the character list. -/
def pyLowerL (l : List Char) : List Char := l.map lowerChar

/-- `str.strip()` on the character list: drop leading and trailing whitespace. -/
def pyStripL (l : List Char) : List Char :=
  (((l.dropWhile pyWS).reverse.dropWhile pyWS).reverse)

/-- Python `s.lower()`. -/
def pyLower (s : String) : String := ⟨pyLowerL s.data⟩

/-- Python `s.strip()`. -/
def pyStrip (s : String) : String := ⟨pyStripL s.data⟩

/-- Python `s.startswith('+')`. -/
def startsWithPlus (s : String) : Bool :=
  match s.data with
  | [] => false
  | c :: _ => c = '+'

/-- Abstract model of the `phonenumbers` parse-then-format pipeline: raw
string and optional region hint in, canonical formatting out, `none` on
`NumberParseException`. -/
def PhoneParser : Type := String → Option String → Option String

/-- `main.py` line 39: `region = None if phone.strip().startswith('+') else 'IN'`. -/
def regionFor (phone : String) : Option String :=
  if startsWithPlus (pyStrip phone) then none else some "IN"

/-- The canonical form of one entry, `main.py` lines 39-52: the formatted
parse result on success, the original string verbatim on parse failure. -/
def canonPhone (pf : PhoneParser) (phone : String) : String :=
  match pf phone (regionFor phone) with
  | some formatted => formatted
  | none => phone

/-- `main.py` line 63: `cleaned_email = email.lower().strip()`. -/
def canonEmail (email : String) : String := pyStrip (pyLower email)

/-- The shared loop shape of `cleanup_phone_numbers` (lines 33-52) and
`cleanup_emails` (lines 58-66): a `seen` set of canonical forms and an output
list, appending each entry's canonical form only when unseen. -/
def dedupLoop (canon : String → String) : List String → Finset String → List String
  | [], _ => []
  | x :: rest, seen =>
    let c := canon x
    if c ∈ seen then dedupLoop canon rest seen
    else c :: dedupLoop canon rest (insert c seen)

/-- `main.py` lines 31-54. -/
def cleanup_phone_numbers (pf : PhoneParser) (phones : List String) : List String :=
  dedupLoop (canonPhone pf) phones ∅

/-- `main.py` lines 56-68. -/
def cleanup_emails (emails : List String) : List String :=
  dedupLoop canonEmail emails ∅

/-- A stored contact, reduced to the field `get_unique_contacts_count` reads. -/
structure Contact where
  phones : List String
deriving DecidableEq

/-- The loop of `get_unique_contacts_count`, `main.py` lines 84-92: the count
is incremented when the contact's phone set does not intersect `all_phones`,
and the phone set is unioned into `all_phones` regardless. -/
def countLoop : List Contact → Nat → Finset String → Nat × Finset String
  | [], uniqueCount, allPhones => (uniqueCount, allPhones)
  | contact :: rest, uniqueCount, allPhones =>
    let contactPhones := contact.phones.toFinset
    countLoop rest
      (if contactPhones ∩ allPhones = ∅ then uniqueCount + 1 else uniqueCount)
      (allPhones ∪ contactPhones)

/-- `main.py` lines 70-94. The Mongo query of lines 80-82 restricts the
corpus to contacts whose `phones` field is a non-empty list; the corpus and
its enumeration order are modelled as a list. -/
def get_unique_contacts_count (corpus : List Contact) : Nat × Finset String :=
  countLoop (corpus.filter (fun c => decide (c.phones ≠ []))) 0 ∅

/-- Spec-side comparison definition ("first-occurrence dedup"): keep the
first occurrence of each value, in order. -/
def keepFirsts : List String → List String
  | [] => []
  | x :: rest => x :: keepFirsts (rest.filter (fun y => decide (y ≠ x)))
termination_by l => l.length
decreasing_by
  simp only [List.length_cons]
  exact Nat.lt_succ_of_le (List.length_filter_le _ _)

/-- The union of all phone numbers of a list of contacts. -/
def phonesUnion (l : List Contact) : Finset String :=
  l.foldr (fun c acc => c.phones.toFinset ∪ acc) ∅

/-- Spec-side comparison definition: position `i` of `l` is counted unique
when its phone set does not meet `s` together with the phones of all earlier
positions. -/
def uniqueAtFrom (s : Finset String) (l : List Contact) (i : Nat) : Bool :=
  decide ((l.getD i ⟨[]⟩).phones.toFinset ∩ (s ∪ phonesUnion (l.take i)) = ∅)

/-- Spec-side comparison definition: the number of positions of `l` counted
unique, starting from the already-accumulated phone set `s`. -/
def specCountFrom (s : Finset String) (l : List Contact) : Nat :=
  ((List.range l.length).filter (uniqueAtFrom s l)).length

/-! ### Helper lemmas about `keepFirsts` and `dedupLoop` -/

theorem keepFirsts_nil : keepFirsts [] = [] := by
  simp [keepFirsts]

theorem keepFirsts_cons (x : String) (rest : List String) :
    keepFirsts (x :: rest) = x :: keepFirsts (rest.filter (fun y => decide (y ≠ x))) := by
  rw [keepFirsts]

theorem mem_keepFirsts : ∀ (m : List String) (a : String), a ∈ keepFirsts m ↔ a ∈ m
  | [], a => by simp [keepFirsts_nil]
  | x :: rest, a => by
    rw [keepFirsts_cons]
    by_cases hax : a = x
    · simp [hax]
    · simp only [List.mem_cons, hax, false_or]
      rw [mem_keepFirsts (rest.filter (fun y => decide (y ≠ x))) a]
      simp [List.mem_filter, hax]
termination_by m => m.length
decreasing_by
  simp only [List.length_cons]
  exact Nat.lt_succ_of_le (List.length_filter_le _ _)

theorem nodup_keepFirsts : ∀ (m : List String), (keepFirsts m).Nodup
  | [] => by simp [keepFirsts_nil]
  | x :: rest => by
    rw [keepFirsts_cons]
    refine List.nodup_cons.mpr ⟨?_, nodup_keepFirsts (rest.filter (fun y => decide (y ≠ x)))⟩
    rw [mem_keepFirsts]
    simp [List.mem_filter]
termination_by m => m.length
decreasing_by
  simp only [List.length_cons]
  exact Nat.lt_succ_of_le (List.length_filter_le _ _)

theorem keepFirsts_of_nodup : ∀ (m : List String), m.Nodup → keepFirsts m = m
  | [], _ => keepFirsts_nil
  | x :: rest, h => by
    rw [keepFirsts_cons]
    rcases List.nodup_cons.mp h with ⟨hx, hrest⟩
    have hfilt : rest.filter (fun y => decide (y ≠ x)) = rest := by
      apply List.filter_eq_self.mpr
      intro a ha
      simp only [decide_eq_true_eq]
      intro hax
      exact hx (hax ▸ ha)
    rw [hfilt, keepFirsts_of_nodup rest hrest]
termination_by m => m.length

theorem dedupLoop_eq (k : String → String) :
    ∀ (l : List String) (s : Finset String),
      dedupLoop k l s = keepFirsts ((l.map k).filter (fun y => decide (y ∉ s)))
  | [], s => by simp [dedupLoop, keepFirsts_nil]
  | x :: rest, s => by
    by_cases hx : k x ∈ s
    · have h1 : dedupLoop k (x :: rest) s = dedupLoop k rest s := by
        simp [dedupLoop, hx]
      have h2 : ((x :: rest).map k).filter (fun y => decide (y ∉ s)) =
          (rest.map k).filter (fun y => decide (y ∉ s)) := by
        simp [List.filter_cons, hx]
      rw [h1, h2, dedupLoop_eq k rest s]
    · have h1 : dedupLoop k (x :: rest) s = k x :: dedupLoop k rest (insert (k x) s) := by
        simp [dedupLoop, hx]
      have h2 : ((x :: rest).map k).filter (fun y => decide (y ∉ s)) =
          k x :: (rest.map k).filter (fun y => decide (y ∉ s)) := by
        simp [List.filter_cons, hx]
      rw [h1, h2, keepFirsts_cons, dedupLoop_eq k rest (insert (k x) s)]
      congr 2
      rw [List.filter_filter]
      apply List.filter_congr
      intro y _
      by_cases hy1 : y ∈ s <;> by_cases hy2 : y = k x <;>
        simp [hy1, hy2, Finset.mem_insert]

theorem cleanup_phones_eq (pf : PhoneParser) (l : List String) :
    cleanup_phone_numbers pf l = keepFirsts (l.map (canonPhone pf)) := by
  rw [cleanup_phone_numbers, dedupLoop_eq]
  congr 1
  apply List.filter_eq_self.mpr
  intro a _
  simp

theorem cleanup_emails_eq (l : List String) :
    cleanup_emails l = keepFirsts (l.map canonEmail) := by
  rw [cleanup_emails, dedupLoop_eq]
  congr 1
  apply List.filter_eq_self.mpr
  intro a _
  simp

theorem mem_cleanup_phones (pf : PhoneParser) (l : List String) (a : String) :
    a ∈ cleanup_phone_numbers pf l ↔ a ∈ l.map (canonPhone pf) := by
  rw [cleanup_phones_eq, mem_keepFirsts]

theorem mem_cleanup_emails (l : List String) (a : String) :
    a ∈ cleanup_emails l ↔ a ∈ l.map canonEmail := by
  rw [cleanup_emails_eq, mem_keepFirsts]

/-! ### Character-level lemmas for the Python string model -/

theorem lowerChar_cases (c : Char) :
    lowerChar c = c ∨ lowerChar c ∈ ['a', 'b', 'c', 'd', 'e', 'f', 'g', 'h', 'i', 'j', 'k',
      'l', 'm', 'n', 'o', 'p', 'q', 'r', 's', 't', 'u', 'v', 'w', 'x', 'y', 'z'] := by
  unfold lowerChar
  by_cases hA : c = 'A'
  · rw [if_pos hA]
    exact Or.inr (by decide)
  rw [if_neg hA]
  by_cases hB : c = 'B'
  · rw [if_pos hB]
    exact Or.inr (by decide)
  rw [if_neg hB]
  by_cases hC : c = 'C'
  · rw [if_pos hC]
    exact Or.inr (by decide)
  rw [if_neg hC]
  by_cases hD : c = 'D'
  · rw [if_pos hD]
    exact Or.inr (by decide)
  rw [if_neg hD]
  by_cases hE : c = 'E'
  · rw [if_pos hE]
    exact Or.inr (by decide)
  rw [if_neg hE]
  by_cases hF : c = 'F'
  · rw [if_pos hF]
    exact Or.inr (by decide)
  rw [if_neg hF]
  by_cases hG : c = 'G'
  · rw [if_pos hG]
    exact Or.inr (by decide)
  rw [if_neg hG]
  by_cases hH : c = 'H'
  · rw [if_pos hH]
    exact Or.inr (by decide)
  rw [if_neg hH]
  by_cases hI : c = 'I'
  · rw [if_pos hI]
    exact Or.inr (by decide)
  rw [if_neg hI]
  by_cases hJ : c = 'J'
  · rw [if_pos hJ]
    exact Or.inr (by decide)
  rw [if_neg hJ]
  by_cases hK : c = 'K'
  · rw [if_pos hK]
    exact Or.inr (by decide)
  rw [if_neg hK]
  by_cases hL : c = 'L'
  · rw [if_pos hL]
    exact Or.inr (by decide)
  rw [if_neg hL]
  by_cases hM : c = 'M'
  · rw [if_pos hM]
    exact Or.inr (by decide)
  rw [if_neg hM]
  by_cases hN : c = 'N'
  · rw [if_pos hN]
    exact Or.inr (by decide)
  rw [if_neg hN]
  by_cases hO : c = 'O'
  · rw [if_pos hO]
    exact Or.inr (by decide)
  rw [if_neg hO]
  by_cases hP : c = 'P'
  · rw [if_pos hP]
    exact Or.inr (by decide)
  rw [if_neg hP]
  by_cases hQ : c = 'Q'
  · rw [if_pos hQ]
    exact Or.inr (by decide)
  rw [if_neg hQ]
  by_cases hR : c = 'R'
  · rw [if_pos hR]
    exact Or.inr (by decide)
  rw [if_neg hR]
  by_cases hS : c = 'S'
  · rw [if_pos hS]
    exact Or.inr (by decide)
  rw [if_neg hS]
  by_cases hT : c = 'T'
  · rw [if_pos hT]
    exact Or.inr (by decide)
  rw [if_neg hT]
  by_cases hU : c = 'U'
  · rw [if_pos hU]
    exact Or.inr (by decide)
  rw [if_neg hU]
  by_cases hV : c = 'V'
  · rw [if_pos hV]
    exact Or.inr (by decide)
  rw [if_neg hV]
  by_cases hW : c = 'W'
  · rw [if_pos hW]
    exact Or.inr (by decide)
  rw [if_neg hW]
  by_cases hX : c = 'X'
  · rw [if_pos hX]
    exact Or.inr (by decide)
  rw [if_neg hX]
  by_cases hY : c = 'Y'
  · rw [if_pos hY]
    exact Or.inr (by decide)
  rw [if_neg hY]
  by_cases hZ : c = 'Z'
  · rw [if_pos hZ]
    exact Or.inr (by decide)
  rw [if_neg hZ]
  exact Or.inl rfl

theorem lowerChar_fix_of_lower (c : Char)
    (h : c ∈ ['a', 'b', 'c', 'd', 'e', 'f', 'g', 'h', 'i', 'j', 'k', 'l', 'm', 'n', 'o',
      'p', 'q', 'r', 's', 't', 'u', 'v', 'w', 'x', 'y', 'z']) : lowerChar c = c := by
  fin_cases h <;> decide

theorem lowerChar_idem (c : Char) : lowerChar (lowerChar c) = lowerChar c := by
  rcases lowerChar_cases c with h | h
  · rw [h, h]
  · exact lowerChar_fix_of_lower _ h

theorem mem_of_mem_dropWhile (p : Char → Bool) (l : List Char) (c : Char)
    (h : c ∈ l.dropWhile p) : c ∈ l := by
  induction l with
  | nil => simp at h
  | cons a t ih =>
    by_cases ha : p a
    · rw [List.dropWhile_cons_of_pos ha] at h
      exact List.mem_cons_of_mem a (ih h)
    · rwa [List.dropWhile_cons_of_neg ha] at h

theorem mem_of_mem_pyStripL (l : List Char) (c : Char) (h : c ∈ pyStripL l) : c ∈ l := by
  unfold pyStripL at h
  rw [List.mem_reverse] at h
  have h2 := mem_of_mem_dropWhile _ _ _ h
  rw [List.mem_reverse] at h2
  exact mem_of_mem_dropWhile _ _ _ h2

theorem head?_dropWhile_not (p : Char → Bool) (l : List Char) (c : Char)
    (h : (l.dropWhile p).head? = some c) : p c = false := by
  induction l with
  | nil => simp at h
  | cons a t ih =>
    by_cases ha : p a
    · rw [List.dropWhile_cons_of_pos ha] at h
      exact ih h
    · rw [List.dropWhile_cons_of_neg ha] at h
      simp only [List.head?_cons, Option.some.injEq] at h
      subst h
      simpa using ha

theorem getLast?_dropWhile (p : Char → Bool) (l : List Char)
    (h : l.dropWhile p ≠ []) : (l.dropWhile p).getLast? = l.getLast? := by
  induction l with
  | nil => simp at h
  | cons a t ih =>
    by_cases ha : p a
    · rw [List.dropWhile_cons_of_pos ha] at h ⊢
      rw [ih h]
      have ht : t ≠ [] := by
        intro he
        rw [he] at h
        simp at h
      cases t with
      | nil => exact absurd rfl ht
      | cons b u => rw [List.getLast?_cons_cons]
    · rw [List.dropWhile_cons_of_neg ha]

theorem dropWhile_eq_self_of_head (p : Char → Bool) (l : List Char)
    (h : ∀ c, l.head? = some c → p c = false) : l.dropWhile p = l := by
  cases l with
  | nil => rfl
  | cons a t =>
    rw [List.dropWhile_cons_of_neg]
    simp [h a rfl]

theorem pyStripL_head? (l : List Char) (c : Char) (h : (pyStripL l).head? = some c) :
    pyWS c = false := by
  unfold pyStripL at h
  rw [List.head?_reverse] at h
  have hne : (l.dropWhile pyWS).reverse.dropWhile pyWS ≠ [] := by
    intro he
    rw [he] at h
    simp at h
  rw [getLast?_dropWhile _ _ hne, List.getLast?_reverse] at h
  exact head?_dropWhile_not _ _ _ h

theorem pyStripL_getLast? (l : List Char) (c : Char) (h : (pyStripL l).getLast? = some c) :
    pyWS c = false := by
  unfold pyStripL at h
  rw [List.getLast?_reverse] at h
  exact head?_dropWhile_not _ _ _ h

theorem pyStripL_idem (l : List Char) : pyStripL (pyStripL l) = pyStripL l := by
  have h1 : (pyStripL l).dropWhile pyWS = pyStripL l :=
    dropWhile_eq_self_of_head _ _ (fun c hc => pyStripL_head? l c hc)
  have h2 : (pyStripL l).reverse.dropWhile pyWS = (pyStripL l).reverse := by
    apply dropWhile_eq_self_of_head
    intro c hc
    rw [List.head?_reverse] at hc
    exact pyStripL_getLast? l c hc
  show (((pyStripL l).dropWhile pyWS).reverse.dropWhile pyWS).reverse = pyStripL l
  rw [h1, h2, List.reverse_reverse]

theorem map_eq_self_of_fixed {α : Type} (f : α → α) (l : List α)
    (h : ∀ c ∈ l, f c = c) : l.map f = l := by
  induction l with
  | nil => rfl
  | cons a t ih =>
    rw [List.map_cons, h a (List.mem_cons_self a t), ih (fun c hc => h c (List.mem_cons_of_mem a hc))]

/-- `canonEmail` is idempotent: its output is already lower-case with no
surrounding whitespace. -/
theorem canonEmail_idem (e : String) : canonEmail (canonEmail e) = canonEmail e := by
  unfold canonEmail pyStrip pyLower pyLowerL
  have hdata : (String.mk (pyStripL (lowerChar <$> e.data))).data = pyStripL (lowerChar <$> e.data) := rfl
  simp only [hdata]
  have hfix : (pyStripL (e.data.map lowerChar)).map lowerChar = pyStripL (e.data.map lowerChar) := by
    apply map_eq_self_of_fixed
    intro c hc
    have hc2 : c ∈ e.data.map lowerChar := mem_of_mem_pyStripL _ _ hc
    rcases List.mem_map.mp hc2 with ⟨u, _, hu⟩
    rw [← hu, lowerChar_idem]
  show String.mk (pyStripL ((pyStripL (e.data.map lowerChar)).map lowerChar)) =
    String.mk (pyStripL (e.data.map lowerChar))
  rw [hfix, pyStripL_idem]

/-! ### Properties of the real `phonenumbers` pipeline, as hypotheses -/

/-- Canonical forms are fixpoints of canonicalization: re-cleaning an
already-formatted number (or an unparseable string kept verbatim) yields it
unchanged. This holds for the real `phonenumbers` pipeline, whose
international formatting re-parses to the same number and re-formats to the
same text. -/
def CanonStable (pf : PhoneParser) : Prop :=
  ∀ s, canonPhone pf (canonPhone pf s) = canonPhone pf s

/-- Formatted outputs are themselves parseable: the real `phonenumbers`
international format always re-parses. -/
def FormattedParses (pf : PhoneParser) : Prop :=
  ∀ s t, pf s (regionFor s) = some t → ∃ u, pf t (regionFor t) = some u

/-- Every element of a cleanup output is a fixpoint of the (idempotent)
canonicalizer. -/
theorem canon_fix_of_mem_keepFirsts (k : String → String)
    (hk : ∀ s, k (k s) = k s) (l : List String) (a : String)
    (ha : a ∈ keepFirsts (l.map k)) : k a = a := by
  rw [mem_keepFirsts] at ha
  rcases List.mem_map.mp ha with ⟨u, _, hu⟩
  rw [← hu, hk]

/-! ### Claims about the normalizer -/

/-- C2: for every input list, the output of `cleanup_phone_numbers` (and of
`cleanup_emails`) consists of the canonical forms of the input in order of
first canonical occurrence (`keepFirsts` of the mapped list), has no
duplicates, and — since canonical forms are fixpoints — no two of its
elements are canonically equal. -/
theorem claim_C2_dedup_order (pf : PhoneParser) (l m : List String)
    (hpf : CanonStable pf) :
    (cleanup_phone_numbers pf l).Nodup ∧
    cleanup_phone_numbers pf l = keepFirsts (l.map (canonPhone pf)) ∧
    (cleanup_phone_numbers pf l).Pairwise
      (fun a b => canonPhone pf a ≠ canonPhone pf b) ∧
    (cleanup_emails m).Nodup ∧
    cleanup_emails m = keepFirsts (m.map canonEmail) ∧
    (cleanup_emails m).Pairwise (fun a b => canonEmail a ≠ canonEmail b) := by
  have hp := cleanup_phones_eq pf l
  have he := cleanup_emails_eq m
  have hpn : (cleanup_phone_numbers pf l).Nodup := by
    rw [hp]; exact nodup_keepFirsts _
  have hen : (cleanup_emails m).Nodup := by
    rw [he]; exact nodup_keepFirsts _
  refine ⟨hpn, hp, ?_, hen, he, ?_⟩
  · refine List.Pairwise.imp_of_mem ?_ hpn
    intro a b ha hb hab
    rw [hp] at ha hb
    rw [canon_fix_of_mem_keepFirsts _ hpf _ _ ha,
      canon_fix_of_mem_keepFirsts _ hpf _ _ hb]
    exact hab
  · refine List.Pairwise.imp_of_mem ?_ hen
    intro a b ha hb hab
    rw [he] at ha hb
    rw [canon_fix_of_mem_keepFirsts _ canonEmail_idem _ _ ha,
      canon_fix_of_mem_keepFirsts _ canonEmail_idem _ _ hb]
    exact hab

theorem claim_C2_dedup_order_witness :
    (cleanup_phone_numbers (fun _ _ => none) ["x", "x"]).Nodup ∧
    cleanup_phone_numbers (fun _ _ => none) ["x", "x"] =
      keepFirsts (["x", "x"].map (canonPhone (fun _ _ => none))) ∧
    (cleanup_phone_numbers (fun _ _ => none) ["x", "x"]).Pairwise
      (fun a b => canonPhone (fun _ _ => none) a ≠ canonPhone (fun _ _ => none) b) ∧
    (cleanup_emails ["A@B.com"]).Nodup ∧
    cleanup_emails ["A@B.com"] = keepFirsts (["A@B.com"].map canonEmail) ∧
    (cleanup_emails ["A@B.com"]).Pairwise (fun a b => canonEmail a ≠ canonEmail b) :=
  claim_C2_dedup_order (fun _ _ => none) ["x", "x"] ["A@B.com"] (fun _ => rfl)

/-- C3: `cleanup_phone_numbers` processes every entry of its input — the
canonical form of each entry, including the last, reaches the output — and
an entry whose parse fails contributes its original string verbatim instead
of aborting the call. The embedding is a total function: the
`NumberParseException` of the source is the `none` branch of the parser,
handled locally. -/
theorem claim_C3_total_graceful (pf : PhoneParser) (l : List String) :
    (∀ p ∈ l, canonPhone pf p ∈ cleanup_phone_numbers pf l) ∧
    (∀ p ∈ l, pf p (regionFor p) = none → p ∈ cleanup_phone_numbers pf l) := by
  constructor
  · intro p hp
    rw [mem_cleanup_phones]
    exact List.mem_map_of_mem _ hp
  · intro p hp hfail
    have hc : canonPhone pf p = p := by
      rw [canonPhone, hfail]
    rw [mem_cleanup_phones, ← hc]
    exact List.mem_map_of_mem _ hp

theorem claim_C3_total_graceful_witness :
    "not-a-number" ∈ cleanup_phone_numbers (fun _ _ => none) ["ok", "not-a-number"] :=
  (claim_C3_total_graceful (fun _ _ => none) ["ok", "not-a-number"]).2
    "not-a-number" (by decide) rfl

/-- C4: a malformed (unparseable) entry appears verbatim in the output, and
it can only collide in the `seen` set with an identical string: since the
real pipeline's formatted outputs re-parse (`FormattedParses`), no canonical
form of a different, parseable entry can equal the malformed string. -/
theorem claim_C4_verbatim_dedup (pf : PhoneParser) (l : List String) (p : String)
    (hrt : FormattedParses pf) (hp : p ∈ l) (hmal : pf p (regionFor p) = none) :
    p ∈ cleanup_phone_numbers pf l ∧ ∀ q ∈ l, canonPhone pf q = p → q = p := by
  constructor
  · have hc : canonPhone pf p = p := by
      rw [canonPhone, hmal]
    rw [mem_cleanup_phones, ← hc]
    exact List.mem_map_of_mem _ hp
  · intro q _ hcq
    cases hpq : pf q (regionFor q) with
    | none =>
      rw [canonPhone, hpq] at hcq
      exact hcq
    | some t =>
      rcases hrt q t hpq with ⟨u, hu⟩
      rw [canonPhone, hpq] at hcq
      have ht : t = p := hcq
      rw [ht, hmal] at hu
      exact Option.noConfusion hu

theorem claim_C4_verbatim_dedup_witness :
    "bad" ∈ cleanup_phone_numbers
        (fun s _ => if s = "+1 F" then some "+1 F" else none) ["+1 F", "bad"] ∧
    ∀ q ∈ ["+1 F", "bad"],
      canonPhone (fun s _ => if s = "+1 F" then some "+1 F" else none) q = "bad" →
        q = "bad" :=
  claim_C4_verbatim_dedup (fun s _ => if s = "+1 F" then some "+1 F" else none)
    ["+1 F", "bad"] "bad"
    (by
      intro s t h
      by_cases hs : s = "+1 F"
      · subst hs
        simp only [if_pos] at h
        cases h
        exact ⟨"+1 F", by simp⟩
      · simp [hs] at h)
    (by decide) rfl

/-- C7: `cleanup_emails` canonicalizes each entry by lower-casing then
stripping surrounding whitespace, with no other validation, and applies
first-occurrence dedup on the canonical strings; on the spec's scenario it
yields `["a@b.com", "c@d.com"]`. -/
theorem claim_C7_email_canon (l : List String) :
    cleanup_emails l = keepFirsts (l.map (fun e => pyStrip (pyLower e))) ∧
    cleanup_emails ["A@B.com", " a@b.com ", "c@d.com"] = ["a@b.com", "c@d.com"] := by
  constructor
  · exact cleanup_emails_eq l
  · decide

/-- C8: `cleanup_phone_numbers` is a fixed point on canonical input — if
every element of `x` is its own canonical form, cleaning twice equals
cleaning once. -/
theorem claim_C8_phones_fixpoint (pf : PhoneParser) (x : List String)
    (h : ∀ e ∈ x, canonPhone pf e = e) :
    cleanup_phone_numbers pf (cleanup_phone_numbers pf x) =
      cleanup_phone_numbers pf x := by
  have hx : cleanup_phone_numbers pf x = keepFirsts x := by
    rw [cleanup_phones_eq, map_eq_self_of_fixed _ _ h]
  have hfix : ∀ e ∈ cleanup_phone_numbers pf x, canonPhone pf e = e := by
    intro e he
    rw [hx, mem_keepFirsts] at he
    exact h e he
  rw [cleanup_phones_eq, map_eq_self_of_fixed _ _ hfix,
    keepFirsts_of_nodup _ (by rw [hx]; exact nodup_keepFirsts x)]

theorem claim_C8_phones_fixpoint_witness :
    cleanup_phone_numbers (fun _ _ => none)
        (cleanup_phone_numbers (fun _ _ => none) ["+91 98765 43210", "x", "x"]) =
      cleanup_phone_numbers (fun _ _ => none) ["+91 98765 43210", "x", "x"] :=
  claim_C8_phones_fixpoint (fun _ _ => none) ["+91 98765 43210", "x", "x"]
    (fun _ _ => rfl)

/-- C10: `cleanup_emails` is idempotent on every input, not only canonical
input: each output element is already lower-case, stripped, and the output
has no duplicates. -/
theorem claim_C10_emails_idempotent (x : List String) :
    cleanup_emails (cleanup_emails x) = cleanup_emails x := by
  have hfix : ∀ e ∈ cleanup_emails x, canonEmail e = e := by
    intro e he
    rw [cleanup_emails_eq] at he
    exact canon_fix_of_mem_keepFirsts _ canonEmail_idem _ _ he
  rw [cleanup_emails_eq (cleanup_emails x), map_eq_self_of_fixed _ _ hfix,
    keepFirsts_of_nodup _ (by rw [cleanup_emails_eq]; exact nodup_keepFirsts _)]

/-! ### Helper lemmas about `countLoop` and `specCountFrom` -/

theorem phonesUnion_nil : phonesUnion [] = ∅ := rfl

theorem phonesUnion_cons (c : Contact) (l : List Contact) :
    phonesUnion (c :: l) = c.phones.toFinset ∪ phonesUnion l := rfl

theorem uniqueAtFrom_zero (s : Finset String) (c : Contact) (rest : List Contact) :
    uniqueAtFrom s (c :: rest) 0 = decide (c.phones.toFinset ∩ s = ∅) := by
  simp [uniqueAtFrom, phonesUnion_nil]

theorem uniqueAtFrom_succ (s : Finset String) (c : Contact) (rest : List Contact)
    (i : Nat) :
    uniqueAtFrom s (c :: rest) (i + 1) =
      uniqueAtFrom (s ∪ c.phones.toFinset) rest i := by
  simp only [uniqueAtFrom, List.getD_cons_succ, List.take_succ_cons, phonesUnion_cons]
  rw [decide_eq_decide, Finset.union_assoc]

theorem specCountFrom_nil (s : Finset String) : specCountFrom s [] = 0 := rfl

theorem specCountFrom_cons (s : Finset String) (c : Contact) (rest : List Contact) :
    specCountFrom s (c :: rest) =
      (if c.phones.toFinset ∩ s = ∅ then 1 else 0) +
        specCountFrom (s ∪ c.phones.toFinset) rest := by
  unfold specCountFrom
  rw [List.length_cons, List.range_succ_eq_map, List.filter_cons]
  have hcomp : (uniqueAtFrom s (c :: rest)) ∘ Nat.succ =
      uniqueAtFrom (s ∪ c.phones.toFinset) rest := by
    funext i
    exact uniqueAtFrom_succ s c rest i
  rw [List.filter_map, hcomp]
  by_cases h : c.phones.toFinset ∩ s = ∅ <;> simp [uniqueAtFrom_zero, h] <;> omega

theorem countLoop_eq : ∀ (l : List Contact) (n : Nat) (s : Finset String),
    countLoop l n s = (n + specCountFrom s l, s ∪ phonesUnion l)
  | [], n, s => by simp [countLoop, specCountFrom_nil, phonesUnion_nil]
  | c :: rest, n, s => by
    have h1 : countLoop (c :: rest) n s =
        countLoop rest (if c.phones.toFinset ∩ s = ∅ then n + 1 else n)
          (s ∪ c.phones.toFinset) := rfl
    rw [h1, countLoop_eq rest _ _, specCountFrom_cons, phonesUnion_cons]
    simp only [Prod.mk.injEq]
    constructor
    · by_cases h : c.phones.toFinset ∩ s = ∅ <;> simp [h] <;> omega
    · rw [Finset.union_assoc]

theorem specCountFrom_le (s : Finset String) (l : List Contact) :
    specCountFrom s l ≤ l.length := by
  unfold specCountFrom
  calc ((List.range l.length).filter (uniqueAtFrom s l)).length
      ≤ (List.range l.length).length := List.length_filter_le _ _
    _ = l.length := List.length_range _

/-! ### Claims about the uniqueness counter -/

/-- C1: over any corpus in a fixed enumeration order, the returned count is
exactly the number of (phone-bearing) contacts whose phone set is disjoint
from the union of the phones of all previously processed contacts, and the
returned set is the union of all their phones; on the spec's scenario
`[{A}, {A,B}, {C}]` with `A`, `B`, `C` pairwise distinct the result is
`(2, {A, B, C})`. -/
theorem claim_C1_count_characterization (corpus : List Contact) (A B C : String)
    (hAB : A ≠ B) (hAC : A ≠ C) (hBC : B ≠ C) :
    get_unique_contacts_count corpus =
      (specCountFrom ∅ (corpus.filter (fun c => decide (c.phones ≠ []))),
        phonesUnion (corpus.filter (fun c => decide (c.phones ≠ [])))) ∧
    get_unique_contacts_count [⟨[A]⟩, ⟨[A, B]⟩, ⟨[C]⟩] = (2, {A, B, C}) := by
  constructor
  · rw [get_unique_contacts_count, countLoop_eq]
    simp
  · have hfilter : ([⟨[A]⟩, ⟨[A, B]⟩, ⟨[C]⟩] : List Contact).filter
        (fun c => decide (c.phones ≠ [])) = [⟨[A]⟩, ⟨[A, B]⟩, ⟨[C]⟩] := rfl
    rw [get_unique_contacts_count, hfilter, countLoop_eq,
      specCountFrom_cons, specCountFrom_cons, specCountFrom_cons, specCountFrom_nil,
      phonesUnion_cons, phonesUnion_cons, phonesUnion_cons, phonesUnion_nil]
    simp only [List.toFinset_cons, List.toFinset_nil]
    rw [if_pos (Finset.inter_empty _)]
    rw [if_neg (Finset.Nonempty.ne_empty ⟨A, by simp⟩)]
    rw [if_pos ?hc3]
    case hc3 =>
      have hCA : C ≠ A := Ne.symm hAC
      have hCB : C ≠ B := Ne.symm hBC
      apply Finset.eq_empty_of_forall_not_mem
      intro x hx
      rw [Finset.mem_inter] at hx
      rcases hx with ⟨hx1, hx2⟩
      simp only [Finset.mem_insert, Finset.not_mem_empty, or_false] at hx1
      subst hx1
      simp [hCA, hCB] at hx2
    simp only [Prod.mk.injEq]
    constructor
    · trivial
    · ext x
      simp

theorem claim_C1_count_characterization_witness :
    get_unique_contacts_count [⟨["a"]⟩, ⟨["a", "b"]⟩, ⟨["c"]⟩] = (2, {"a", "b", "c"}) :=
  (claim_C1_count_characterization [] "a" "b" "c" (by decide) (by decide) (by decide)).2

/-- C5: the count is between `0` and the number of contacts with at least
one phone, and a contact with an empty phone list contributes to neither the
count nor the returned phone set: removing it leaves the whole result
unchanged. -/
theorem claim_C5_bounds_empty_excluded (corpus l1 l2 : List Contact) (c : Contact)
    (hc : c.phones = []) :
    0 ≤ (get_unique_contacts_count corpus).1 ∧
    (get_unique_contacts_count corpus).1 ≤
      (corpus.filter (fun c => decide (c.phones ≠ []))).length ∧
    get_unique_contacts_count (l1 ++ c :: l2) = get_unique_contacts_count (l1 ++ l2) := by
  refine ⟨Nat.zero_le _, ?_, ?_⟩
  · rw [get_unique_contacts_count, countLoop_eq]
    simpa using specCountFrom_le _ _
  · rw [get_unique_contacts_count, get_unique_contacts_count]
    congr 1
    simp [List.filter_append, List.filter_cons, hc]

theorem claim_C5_bounds_empty_excluded_witness :
    0 ≤ (get_unique_contacts_count [⟨["x"]⟩]).1 ∧
    (get_unique_contacts_count [⟨["x"]⟩]).1 ≤
      (([⟨["x"]⟩] : List Contact).filter (fun c => decide (c.phones ≠ []))).length ∧
    get_unique_contacts_count ([⟨["x"]⟩] ++ (⟨[]⟩ : Contact) :: [⟨["y"]⟩]) =
      get_unique_contacts_count ([⟨["x"]⟩] ++ [⟨["y"]⟩]) :=
  claim_C5_bounds_empty_excluded [⟨["x"]⟩] [⟨["x"]⟩] [⟨["y"]⟩] ⟨[]⟩ rfl

/-- C9: whenever at least one contact with a non-empty phone list is in the
corpus, the count is at least `1`: the first filtered contact is checked
against an empty accumulated set and is always counted. -/
theorem claim_C9_nonempty_count_pos (corpus : List Contact)
    (h : corpus.filter (fun c => decide (c.phones ≠ [])) ≠ []) :
    1 ≤ (get_unique_contacts_count corpus).1 := by
  rw [get_unique_contacts_count]
  rcases hl : corpus.filter (fun c => decide (c.phones ≠ [])) with _ | ⟨c, rest⟩
  · exact absurd hl h
  · rw [countLoop_eq, hl, specCountFrom_cons, if_pos (Finset.inter_empty _)]
    show 1 ≤ 0 + (1 + specCountFrom (∅ ∪ c.phones.toFinset) rest)
    omega

theorem claim_C9_nonempty_count_pos_witness :
    1 ≤ (get_unique_contacts_count [⟨["x"]⟩]).1 :=
  claim_C9_nonempty_count_pos [⟨["x"]⟩] (by decide)

/-- C6: the region hint handed to the parser is `None` exactly when the
stripped input starts with `'+'`, and the fixed default `"IN"` otherwise;
the canonical form is the parser's output under that hint, with the raw
string as fallback. -/
theorem claim_C6_region_hint (pf : PhoneParser) (phone : String) :
    (startsWithPlus (pyStrip phone) = true → regionFor phone = none ∧
      canonPhone pf phone = (pf phone none).getD phone) ∧
    (startsWithPlus (pyStrip phone) = false → regionFor phone = some "IN" ∧
      canonPhone pf phone = (pf phone (some "IN")).getD phone) := by
  constructor
  · intro h
    have hr : regionFor phone = none := by rw [regionFor, if_pos h]
    refine ⟨hr, ?_⟩
    rw [canonPhone, hr]
    cases pf phone none <;> rfl
  · intro h
    have hr : regionFor phone = some "IN" := by
      rw [regionFor, if_neg]
      simp [h]
    refine ⟨hr, ?_⟩
    rw [canonPhone, hr]
    cases pf phone (some "IN") <;> rfl

theorem claim_C6_region_hint_witness :
    (regionFor " +911 " = none ∧
      canonPhone (fun _ _ => none) " +911 " =
        ((fun (_ : String) (_ : Option String) => (none : Option String)) " +911 " none).getD " +911 ") ∧
    (regionFor "911" = some "IN" ∧
      canonPhone (fun _ _ => none) "911" =
        ((fun (_ : String) (_ : Option String) => (none : Option String)) "911" (some "IN")).getD "911") :=
  ⟨(claim_C6_region_hint (fun _ _ => none) " +911 ").1 (by decide),
   (claim_C6_region_hint (fun _ _ => none) "911").2 (by decide)⟩
